import Mathlib

/-!
# Shallow embedding of `jupyter_cadquery/mate_assembly/massembly.py`

The Python module defines `MAssembly`, a tree of assembly nodes.  Each node
carries a name, an optional owned geometry object (`obj`), a local rigid pose
(`loc`), an ordered list of children, an optional origin mate, a list of mate
names declared at the node (`matelist`), a mate registry (`mates`, used only on
the receiver of the registry-level methods, i.e. the root) and a `relocated`
flag.

Rigid poses (`cadquery.Location`) and geometry objects (`Workplane`/`Shape`)
are external collaborators; they are embedded as opaque types `P` (poses) and
`S` (shapes) together with the operation bundles `PoseOps` (composition,
inversion, identity) and `ShapeMove` (apply a rigid transform to geometry).

Python in-place mutation becomes functional update: each method takes the
receiver tree and returns the new tree.  Raised exceptions (`KeyError` on a
registry lookup, `AttributeError` on dereferencing an absent object) become
`Option` failure (`none`).  Printed diagnostics become an explicit
`List String` of emitted lines.
-/

/-- Pose algebra consumed from the geometry kernel (`cadquery.Location`):
`comp` is `*`, `inv` is `.inverse`, `ident` is `Location()`. -/
class PoseOps (P : Type) where
  comp : P → P → P
  inv : P → P
  ident : P

/-- Geometry capability consumed from the kernel: `moved sh p` is
`Workplane(sh.val().moved(p))`, i.e. apply a rigid transform to a shape. -/
class ShapeMove (S P : Type) where
  moved : S → P → S

/-- Modelled from the spec: the `Mate` class lives in the sibling module
`mate.py`, which is not part of the reviewed file.  Per the spec a Mate is an
immutable named rigid frame; the only parts used by `massembly.py` are its
pose (`loc`) and `moved`. -/
structure Mate (P : Type) where
  loc : P
deriving DecidableEq

/-- Modelled from the spec: `Mate.moved p` produces a new `Mate` whose pose is
the old pose transformed by `p` (so that, as §4.3 of the spec states, moving a
mate by the *inverse* of an origin pose re-expresses the mate pose in that
origin's frame: `inv q * pose`).  Never mutates in place. -/
def Mate.moved [PoseOps P] (m : Mate P) (p : P) : Mate P :=
  ⟨PoseOps.comp p m.loc⟩

/-- One value of the root-owned mate registry: Python's
`{"mate": mate, "assembly": selector}` dict. -/
structure MateEntry (P : Type) where
  mate : Mate P
  assembly : String
deriving DecidableEq

/-- The assembly tree.  Fields in constructor order: `name`, `obj`, `loc`,
`origin`, `matelist`, `mates` (registry; Python gives every node one, only the
receiver's is used), `relocated`, `children`. -/
inductive MAssembly (P S : Type) : Type where
  | mk : (name : String) → (obj : Option S) → (loc : P) →
      (origin : Option (Mate P)) → (matelist : List String) →
      (mates : List (String × MateEntry P)) → (relocated : Bool) →
      (children : List (MAssembly P S)) → MAssembly P S

namespace MAssembly

variable {P S : Type}

def name : MAssembly P S → String
  | .mk n _ _ _ _ _ _ _ => n

def obj : MAssembly P S → Option S
  | .mk _ o _ _ _ _ _ _ => o

def loc : MAssembly P S → P
  | .mk _ _ l _ _ _ _ _ => l

def origin : MAssembly P S → Option (Mate P)
  | .mk _ _ _ og _ _ _ _ => og

def matelist : MAssembly P S → List String
  | .mk _ _ _ _ ml _ _ _ => ml

def mates : MAssembly P S → List (String × MateEntry P)
  | .mk _ _ _ _ _ ms _ _ => ms

def relocated : MAssembly P S → Bool
  | .mk _ _ _ _ _ _ r _ => r

def children : MAssembly P S → List (MAssembly P S)
  | .mk _ _ _ _ _ _ _ cs => cs

def withLoc (t : MAssembly P S) (l : P) : MAssembly P S :=
  .mk t.name t.obj l t.origin t.matelist t.mates t.relocated t.children

def withChildren (t : MAssembly P S) (cs : List (MAssembly P S)) : MAssembly P S :=
  .mk t.name t.obj t.loc t.origin t.matelist t.mates t.relocated cs

def withMates (t : MAssembly P S) (ms : List (String × MateEntry P)) : MAssembly P S :=
  .mk t.name t.obj t.loc t.origin t.matelist ms t.relocated t.children

def withRelocated (t : MAssembly P S) (r : Bool) : MAssembly P S :=
  .mk t.name t.obj t.loc t.origin t.matelist t.mates r t.children

/-- The node update performed by `mate` on the resolved assembly:
`assembly.matelist.append(name)`, and `assembly.origin = mate` if `is_origin`. -/
def registerMate (t : MAssembly P S) (nm : String) (m : Mate P) (is_origin : Bool) :
    MAssembly P S :=
  .mk t.name t.obj t.loc (if is_origin then some m else t.origin)
    (t.matelist ++ [nm]) t.mates t.relocated t.children

/-- Python's `selector.split(">")`: split the selector at every `>`, keeping
empty segments (`"".split(">") == [""]`, `"a>".split(">") == ["a", ""]`).
Splitting the character list gives the same function as `String.splitOn ">"`
but in a form that evaluates by `decide`/`rfl` on concrete selectors. -/
def split_sel (selector : String) : List String :=
  (selector.data.splitOn '>').map (fun cs => String.mk cs)

/-- Search `find_assembly`, on the `>`-split form of the selector string.

Python splits the selector at `>`, scans `[self] + self.children` for the
first node named like the head segment and recurses into it with
`">".join(selectors[1:])`; the selector `""` returns `self`.  A segment list
`segs` stands for the selector string `">".intercalate segs`; since segments
never contain `>`, re-splitting the joined tail gives back the tail, except
that the joined tail is `""` (hence resolves to the current node) exactly when
the tail is `[]` or `[""]` — whence the guard below.
-/
def find_assembly (t : MAssembly P S) (segs : List String) :
    Option (MAssembly P S) :=
  match segs with
  | [] => some t
  | s :: rest =>
    if s = "" ∧ rest = [] then some t
    else
      match (t :: t.children).find? (fun a => a.name = s) with
      | some a => find_assembly a rest
      | none => none

/-- Variant of `find_assembly` taking the selector as a string, exactly as Python does. -/
def find_assembly_str (t : MAssembly P S) (selector : String) :
    Option (MAssembly P S) :=
  find_assembly t (split_sel selector)

/-- Python `dict` lookup `d[k]` on the registry, as an `Option`
(`none` models the raised `KeyError`). -/
def dict_find (d : List (String × MateEntry P)) (k : String) :
    Option (MateEntry P) :=
  (d.find? (fun e => e.1 = k)).map (fun e => e.2)

/-- Python `dict` store `d[k] = v`: replace the binding in place if the key
exists, else append a new binding (dicts preserve insertion order). -/
def dict_set (d : List (String × MateEntry P)) (k : String) (v : MateEntry P) :
    List (String × MateEntry P) :=
  if d.any (fun e => e.1 = k) then
    d.map (fun e => if e.1 = k then (k, v) else e)
  else d ++ [(k, v)]

/-- Walk a child list; rewrite the first child named `s` via `g`, keep every
other child as is. -/
def update_first (cs : List (MAssembly P S)) (s : String)
    (g : MAssembly P S → MAssembly P S) : List (MAssembly P S) :=
  match cs with
  | [] => []
  | c :: cs' =>
    if c.name = s then g c :: cs'
    else c :: update_first cs' s g

/-- Functional counterpart of Python's mutate-through-a-found-reference: apply `f`
to the node that `find_assembly` resolves for `segs`, leaving the rest of the
tree unchanged.  Mirrors `find_assembly`'s traversal exactly: same guard, self
checked before the children, first name match wins; if no candidate matches,
the tree is returned unchanged (`find_assembly` returned `None`, so the Python
caller had nothing to mutate).
-/
def update_at (t : MAssembly P S) (segs : List String)
    (f : MAssembly P S → MAssembly P S) : MAssembly P S :=
  match segs with
  | [] => f t
  | s :: rest =>
    if s = "" ∧ rest = [] then f t
    else if t.name = s then update_at t rest f
    else t.withChildren (update_first t.children s (fun c => update_at c rest f))

/-- Method `MAssembly.mate(name, selector, mate, is_origin)`: resolve `selector`; if it
resolves, store `{name: {"mate": m, "assembly": selector}}` in the receiver's
registry, append `name` to the resolved node's `matelist` and, if `is_origin`,
set that node's `origin` to `m`.  If the selector does not resolve, nothing
happens.  `self` is returned either way, and nothing is ever printed — the
second component is the (always empty) list of emitted diagnostics.
-/
def mate (t : MAssembly P S) (nm : String) (selector : String) (m : Mate P)
    (is_origin : Bool) : MAssembly P S × List String :=
  match find_assembly t (split_sel selector) with
  | none => (t, [])
  | some _ =>
    let t1 := t.withMates (dict_set t.mates nm ⟨m, selector⟩)
    (update_at t1 (split_sel selector) (fun a => a.registerMate nm m is_origin), [])

mutual
/-- Method `MAssembly.set_origin`: pre-order pass; at each node with an `origin`, replace
`obj` with `Workplane(obj.val().moved(origin.loc.inverse))` and reset `loc` to
`Location()` (the identity), then recurse into the children.  Dereferencing an
absent `obj` (`None.val()`) raises `AttributeError`, modelled as `none`.
-/
def set_origin [PoseOps P] [ShapeMove S P] :
    MAssembly P S → Option (MAssembly P S)
  | .mk n ob l og ml ms r cs =>
    match og with
    | some m =>
      match ob with
      | none => none
      | some sh =>
        match set_origin_children cs with
        | none => none
        | some cs2 =>
          some (.mk n (some (ShapeMove.moved sh (PoseOps.inv m.loc)))
            PoseOps.ident og ml ms r cs2)
    | none =>
      match set_origin_children cs with
      | none => none
      | some cs2 => some (.mk n ob l og ml ms r cs2)

/-- Python's `for c in self.children: c.set_origin()`, propagating a raised error. -/
def set_origin_children [PoseOps P] [ShapeMove S P] :
    List (MAssembly P S) → Option (List (MAssembly P S))
  | [] => some []
  | c :: cs =>
    match set_origin c, set_origin_children cs with
    | some c2, some cs2 => some (c2 :: cs2)
    | _, _ => none
end

/-- The body of `relocate`'s registry loop for one entry `(k, v)`: resolve
`v["assembly"]` on the (already re-origined) tree `t1`; if the owner has an
origin, replace the stored mate by `v["mate"].moved(owner.origin.loc.inverse)`.
Python dereferences `assy.origin` without a `None` check, so an unresolved
owner selector raises `AttributeError` (`none` here). -/
def relocate_entry [PoseOps P] (t1 : MAssembly P S) :
    String × MateEntry P → Option (String × MateEntry P)
  | (k, v) =>
    match find_assembly t1 (split_sel v.assembly) with
    | none => none
    | some assy =>
      match assy.origin with
      | some o => some (k, ⟨v.mate.moved (PoseOps.inv o.loc), v.assembly⟩)
      | none => some (k, v)

/-- Python's `for _, v in self.mates.items(): ...` loop: rewrite each registry entry in
order, propagating a raised error. -/
def relocate_entries [PoseOps P] (t1 : MAssembly P S) :
    List (String × MateEntry P) → Option (List (String × MateEntry P))
  | [] => some []
  | e :: es =>
    match relocate_entry t1 e, relocate_entries t1 es with
    | some e2, some es2 => some (e2 :: es2)
    | _, _ => none

/-- Method `MAssembly.relocate()`: if `relocated` is already set, print
`"already relocated"` and do nothing; otherwise run `set_origin` over the
whole tree, rewrite every registry entry whose owner has an origin, and set
`relocated`.  Result: `(new tree or raised error, printed lines)`.
-/
def relocate [PoseOps P] [ShapeMove S P] (t : MAssembly P S) :
    Option (MAssembly P S) × List String :=
  if t.relocated then (some t, ["already relocated"])
  else
    match set_origin t with
    | none => (none, [])
    | some t1 =>
      match relocate_entries t1 t1.mates with
      | none => (none, [])
      | some ms2 => (some ((t1.withMates ms2).withRelocated true), [])

/-- Method `MAssembly.assemble(mate_obj, mate_target)`: look up `mate_obj` in the
registry (`KeyError` → `none`), resolve its owner; if the owner does not
resolve, print `No assembly for '...'` and return `self` unchanged; otherwise
look up `mate_target` (`KeyError` → `none`, only reached in this branch) and
overwrite the owner's `loc` with `m_target.loc * m_obj.loc.inverse`.
-/
def assemble [PoseOps P] (t : MAssembly P S) (mate_obj mate_target : String) :
    Option (MAssembly P S × List String) :=
  match dict_find t.mates mate_obj with
  | none => none
  | some e_obj =>
    match find_assembly t (split_sel e_obj.assembly) with
    | none => some (t, ["No assembly for '" ++ mate_obj ++ "'"])
    | some _ =>
      match dict_find t.mates mate_target with
      | none => none
      | some e_target =>
        some (update_at t (split_sel e_obj.assembly)
          (fun a => a.withLoc
            (PoseOps.comp e_target.mate.loc (PoseOps.inv e_obj.mate.loc))), [])

/-- The per-node data of one tree node, with the children stripped: used to
state whole-tree properties node by node. -/
structure NodeView (P S : Type) where
  name : String
  obj : Option S
  loc : P
  origin : Option (Mate P)
  matelist : List String
  mates : List (String × MateEntry P)
  relocated : Bool
deriving DecidableEq

mutual
/-- Pre-order listing of every node's `NodeView`. -/
def flatten : MAssembly P S → List (NodeView P S)
  | .mk n ob l og ml ms r cs => ⟨n, ob, l, og, ml, ms, r⟩ :: flatten_children cs

def flatten_children : List (MAssembly P S) → List (NodeView P S)
  | [] => []
  | c :: cs => flatten c ++ flatten_children cs
end

/-- The per-node data of a single node. -/
def viewOf (t : MAssembly P S) : NodeView P S :=
  ⟨t.name, t.obj, t.loc, t.origin, t.matelist, t.mates, t.relocated⟩

/-- A `NodeView` with everything but the pose: used to say that an operation
left every field of every node other than some pose untouched. -/
def eraseLoc (v : NodeView P S) :
    String × Option S × Option (Mate P) × List String ×
      List (String × MateEntry P) × Bool :=
  (v.name, v.obj, v.origin, v.matelist, v.mates, v.relocated)

/-- Replace just the pose of a `NodeView`. -/
def withLocView (v : NodeView P S) (l : P) : NodeView P S :=
  ⟨v.name, v.obj, l, v.origin, v.matelist, v.mates, v.relocated⟩

/-- What one `set_origin` step does to a single node's data: a node with an
origin gets its geometry moved by the inverse of the origin pose and its pose
reset to the identity (raising if the geometry is absent); a node without an
origin is untouched. -/
def origin_view [PoseOps P] [ShapeMove S P] (v : NodeView P S) :
    Option (NodeView P S) :=
  match v.origin with
  | some m =>
    match v.obj with
    | none => none
    | some sh =>
      some ⟨v.name, some (ShapeMove.moved sh (PoseOps.inv m.loc)), PoseOps.ident,
        v.origin, v.matelist, v.mates, v.relocated⟩
  | none => some v

/-- A name-path from `t` to `target` every segment of which matches exactly
one of the candidates (`{node} ∪ node.children`) checked at that step. -/
inductive Resolves : MAssembly P S → List String → MAssembly P S → Prop where
  | here (t : MAssembly P S) : Resolves t [] t
  | step {t a target : MAssembly P S} {s : String} {rest : List String}
      (hs : s ≠ "")
      (hu : (t :: t.children).filter (fun x => x.name = s) = [a])
      (htail : Resolves a rest target) : Resolves t (s :: rest) target

end MAssembly

/-! ### A concrete pose/shape instantiation, used to evaluate the theorems on
concrete assemblies: poses are integer offsets composed by addition. -/

instance : PoseOps Int where
  comp a b := a + b
  inv a := -a
  ident := 0

instance : ShapeMove Int Int where
  moved sh p := sh + p

namespace MAssembly

/-! ### Concrete assemblies -/

/-- A leaf part named `armL`, geometry `100`, pose `5`. -/
def WarmL : MAssembly Int Int := .mk "armL" (some 100) 5 none [] [] false []

/-- A leaf part named `armR`, geometry `200`, pose `7`. -/
def WarmR : MAssembly Int Int := .mk "armR" (some 200) 7 none [] [] false []

/-- A root named `base` with the two arms as children. -/
def Wbase : MAssembly Int Int := .mk "base" (some 1) 0 none [] [] false [WarmL, WarmR]

/-- Tree `Wbase` after `mate("wristL", "armL", Mate 3)` and
`mate("wristR", "armR", Mate 10)` (registry entries only; no origins). -/
def Wreg : MAssembly Int Int :=
  .mk "base" (some 1) 0 none []
    [("wristL", ⟨⟨3⟩, "armL"⟩), ("wristR", ⟨⟨10⟩, "armR"⟩)] false [WarmL, WarmR]

/-- Arm `armL` carrying an origin mate at pose `3` and the declared mate name. -/
def WoL : MAssembly Int Int :=
  .mk "armL" (some 100) 5 (some ⟨3⟩) ["wristL"] [] false []

/-- A root whose registry has `wristL` on `armL` (which has an origin) and
`wristR` on `armR` (which has none): input for `relocate`. -/
def Wrel : MAssembly Int Int :=
  .mk "base" (some 1) 0 none []
    [("wristL", ⟨⟨3⟩, "armL"⟩), ("wristR", ⟨⟨10⟩, "armR"⟩)] false [WoL, WarmR]

/-- Tree `Wrel` after the `set_origin` pass: `armL` recentred on its origin
(geometry `100 - 3 = 97`, pose reset to the identity), everything else
untouched. -/
def Wt1 : MAssembly Int Int :=
  .mk "base" (some 1) 0 none []
    [("wristL", ⟨⟨3⟩, "armL"⟩), ("wristR", ⟨⟨10⟩, "armR"⟩)] false
    [.mk "armL" (some 97) 0 (some ⟨3⟩) ["wristL"] [] false [], WarmR]

/-- Tree `Wrel` after `relocate()`: additionally `wristL` re-expressed in `armL`'s
origin frame (`3 - 3 = 0`) and the `relocated` flag set. -/
def Wrel' : MAssembly Int Int :=
  .mk "base" (some 1) 0 none []
    [("wristL", ⟨⟨0⟩, "armL"⟩), ("wristR", ⟨⟨10⟩, "armR"⟩)] true
    [.mk "armL" (some 97) 0 (some ⟨3⟩) ["wristL"] [] false [], WarmR]

/-- Two identically named legs under one root. -/
def Wleg1 : MAssembly Int Int := .mk "leg" (some 11) 1 none [] [] false []

def Wleg2 : MAssembly Int Int := .mk "leg" (some 22) 2 none [] [] false []

def Wtable : MAssembly Int Int :=
  .mk "table" (some 0) 0 none [] [] false [Wleg1, Wleg2]

/-- A root whose registry entry `g` names an owner selector (`ghostsel`) that
resolves to no node. -/
def Wghost : MAssembly Int Int :=
  .mk "base" (some 1) 0 none [] [("g", ⟨⟨1⟩, "ghostsel"⟩)] false [WarmL, WarmR]

/-- A pure grouping node: origin set, but no owned geometry. -/
def Wgrp : MAssembly Int Int := .mk "grp" none 4 (some ⟨2⟩) [] [] false []

/-- A root containing the geometry-less grouping node. -/
def Wbad : MAssembly Int Int := .mk "root" (some 1) 0 none [] [] false [Wgrp]

/-! ### Basic simp lemmas -/

@[simp] theorem name_mk (n : String) (ob : Option S) (l : P) (og ml ms r cs) :
    (MAssembly.mk n ob l og ml ms r cs).name = n := rfl

@[simp] theorem obj_mk (n : String) (ob : Option S) (l : P) (og ml ms r cs) :
    (MAssembly.mk n ob l og ml ms r cs).obj = ob := rfl

@[simp] theorem loc_mk (n : String) (ob : Option S) (l : P) (og ml ms r cs) :
    (MAssembly.mk n ob l og ml ms r cs).loc = l := rfl

@[simp] theorem origin_mk (n : String) (ob : Option S) (l : P) (og ml ms r cs) :
    (MAssembly.mk n ob l og ml ms r cs).origin = og := rfl

@[simp] theorem matelist_mk (n : String) (ob : Option S) (l : P) (og ml ms r cs) :
    (MAssembly.mk n ob l og ml ms r cs).matelist = ml := rfl

@[simp] theorem mates_mk (n : String) (ob : Option S) (l : P) (og ml ms r cs) :
    (MAssembly.mk n ob l og ml ms r cs).mates = ms := rfl

@[simp] theorem relocated_mk (n : String) (ob : Option S) (l : P) (og ml ms r cs) :
    (MAssembly.mk n ob l og ml ms r cs).relocated = r := rfl

@[simp] theorem children_mk (n : String) (ob : Option S) (l : P) (og ml ms r cs) :
    (MAssembly.mk n ob l og ml ms r cs).children = cs := rfl

@[simp] theorem withLoc_name (t : MAssembly P S) (l : P) :
    (t.withLoc l).name = t.name := rfl

@[simp] theorem withLoc_loc (t : MAssembly P S) (l : P) :
    (t.withLoc l).loc = l := rfl

@[simp] theorem withLoc_children (t : MAssembly P S) (l : P) :
    (t.withLoc l).children = t.children := rfl

@[simp] theorem withMates_mates (t : MAssembly P S) (ms) :
    (t.withMates ms).mates = ms := rfl

@[simp] theorem withRelocated_mates (t : MAssembly P S) (r) :
    (t.withRelocated r).mates = t.mates := rfl

@[simp] theorem withRelocated_relocated (t : MAssembly P S) (r) :
    (t.withRelocated r).relocated = r := rfl

/-! ### `find_assembly` equations -/

theorem find_assembly_guard (t : MAssembly P S) {segs : List String}
    (h : segs = [] ∨ segs = [""]) : find_assembly t segs = some t := by
  rcases h with h | h <;> subst h <;> simp [find_assembly]

theorem find_assembly_cons (t : MAssembly P S) {s : String} {rest : List String}
    (h : ¬(s = "" ∧ rest = [])) :
    find_assembly t (s :: rest) =
      match (t :: t.children).find? (fun a => a.name = s) with
      | some a => find_assembly a rest
      | none => none := by
  conv_lhs => rw [find_assembly]
  rw [if_neg h]

/-! ### Path resolution -/

theorem find?_of_filter_eq_singleton {α : Type} {p : α → Bool} :
    ∀ {l : List α} {a : α}, l.filter p = [a] → l.find? p = some a := by
  intro l
  induction l with
  | nil => intro a h; simp at h
  | cons x l' ih =>
    intro a h
    by_cases hp : p x
    · rw [List.filter_cons_of_pos hp] at h
      obtain ⟨rfl, -⟩ := List.cons_eq_cons.mp h
      simp [List.find?, hp]
    · rw [List.filter_cons_of_neg (by simpa using hp)] at h
      simp only [List.find?]
      rw [Bool.of_not_eq_true hp]
      exact ih h

theorem resolves_find {t target : MAssembly P S} {segs : List String}
    (h : Resolves t segs target) : find_assembly t segs = some target := by
  induction h with
  | here t => exact find_assembly_guard t (Or.inl rfl)
  | step hs hu htail ih =>
    rw [find_assembly_cons _ (fun hc => hs hc.1)]
    rw [find?_of_filter_eq_singleton hu]
    exact ih

/-! ### `update_at` equations and their interplay with `find_assembly` -/

@[simp] theorem withChildren_name (t : MAssembly P S) (cs) :
    (t.withChildren cs).name = t.name := rfl

@[simp] theorem withChildren_children (t : MAssembly P S) (cs) :
    (t.withChildren cs).children = cs := rfl

theorem update_at_guard (t : MAssembly P S) {segs : List String} (f)
    (h : segs = [] ∨ segs = [""]) : update_at t segs f = f t := by
  rcases h with h | h <;> subst h <;> simp [update_at]

theorem update_at_cons (t : MAssembly P S) {s : String} {rest : List String} (f)
    (h : ¬(s = "" ∧ rest = [])) :
    update_at t (s :: rest) f =
      if t.name = s then update_at t rest f
      else t.withChildren
        (update_first t.children s (fun c => update_at c rest f)) := by
  conv_lhs => rw [update_at]
  rw [if_neg h]

theorem update_at_name {f : MAssembly P S → MAssembly P S}
    (hf : ∀ x, (f x).name = x.name) :
    ∀ (segs : List String) (t : MAssembly P S),
      (update_at t segs f).name = t.name := by
  intro segs
  induction segs with
  | nil =>
    intro t; rw [update_at_guard t f (Or.inl rfl)]; exact hf t
  | cons s rest ih =>
    intro t
    by_cases hg : s = "" ∧ rest = []
    · obtain ⟨rfl, rfl⟩ := hg
      rw [update_at_guard t f (Or.inr rfl)]; exact hf t
    · rw [update_at_cons t f hg]
      by_cases ht : t.name = s
      · rw [if_pos ht]; exact ih t
      · rw [if_neg ht]; rfl

theorem find?_update_first {g : MAssembly P S → MAssembly P S}
    (hg : ∀ x, (g x).name = x.name) (s : String) :
    ∀ (cs : List (MAssembly P S)) (b : MAssembly P S),
      cs.find? (fun x => x.name = s) = some b →
      (update_first cs s g).find? (fun x => x.name = s) = some (g b) := by
  intro cs
  induction cs with
  | nil => intro b h; simp at h
  | cons c cs' ih =>
    intro b h
    by_cases hc : c.name = s
    · rw [List.find?_cons_of_pos _ (by simpa using hc)] at h
      cases h
      simp only [update_first]
      rw [if_pos hc]
      rw [List.find?_cons_of_pos _ (by simp [hg, hc])]
    · rw [List.find?_cons_of_neg _ (by simpa using hc)] at h
      simp only [update_first]
      rw [if_neg hc]
      rw [List.find?_cons_of_neg _ (by simpa using hc)]
      exact ih b h

/-- After a name-preserving node rewrite, `find_assembly` finds, at the same selector, the rewritten node in
the rewritten tree (for node rewrites that preserve the node's name). -/
theorem find_update_at (f : MAssembly P S → MAssembly P S)
    (hf : ∀ x, (f x).name = x.name) :
    ∀ (segs : List String) (t a : MAssembly P S),
      find_assembly t segs = some a →
      find_assembly (update_at t segs f) segs = some (f a) := by
  intro segs
  induction segs with
  | nil =>
    intro t a h
    rw [find_assembly_guard t (Or.inl rfl)] at h
    cases h
    rw [update_at_guard t f (Or.inl rfl)]
    exact find_assembly_guard _ (Or.inl rfl)
  | cons s rest ih =>
    intro t a h
    by_cases hg : s = "" ∧ rest = []
    · obtain ⟨rfl, rfl⟩ := hg
      rw [find_assembly_guard t (Or.inr rfl)] at h
      cases h
      rw [update_at_guard t f (Or.inr rfl)]
      exact find_assembly_guard _ (Or.inr rfl)
    · rw [find_assembly_cons t hg] at h
      rw [update_at_cons t f hg]
      by_cases ht : t.name = s
      · rw [List.find?_cons_of_pos _ (by simpa using ht)] at h
        rw [if_pos ht]
        rw [find_assembly_cons _ hg]
        rw [List.find?_cons_of_pos _ (by simp [update_at_name hf, ht])]
        exact ih t a h
      · rw [List.find?_cons_of_neg _ (by simpa using ht)] at h
        rw [if_neg ht]
        rw [find_assembly_cons _ hg]
        rw [List.find?_cons_of_neg _ (by simpa using ht)]
        cases hfind : t.children.find? (fun x => x.name = s) with
        | none => rw [hfind] at h; simp at h
        | some b =>
          rw [hfind] at h
          rw [withChildren_children,
            find?_update_first (fun x => update_at_name hf rest x) s t.children b hfind]
          exact ih b a h

/-! ### What a pose-only update does to the whole tree -/

theorem flatten_eq (t : MAssembly P S) :
    flatten t = viewOf t :: flatten_children t.children := by
  cases t; rfl

theorem flatten_withLoc (t : MAssembly P S) (p : P) :
    flatten (t.withLoc p) = withLocView (viewOf t) p :: flatten_children t.children := by
  cases t; rfl

theorem flatten_withChildren (t : MAssembly P S) (cs) :
    flatten (t.withChildren cs) = viewOf t :: flatten_children cs := by
  cases t; rfl

@[simp] theorem flatten_children_nil :
    flatten_children ([] : List (MAssembly P S)) = [] := rfl

@[simp] theorem flatten_children_cons (c : MAssembly P S) (cs) :
    flatten_children (c :: cs) = flatten c ++ flatten_children cs := rfl

mutual
/-- Rewriting just the pose of the node resolved by `segs` splits the
pre-order node listing into an unchanged prefix, the resolved node's data with
only its pose replaced, and an unchanged suffix. -/
theorem update_loc_split (p : P) (segs : List String) (t a : MAssembly P S)
    (h : find_assembly t segs = some a) :
    ∃ l1 l2, flatten t = l1 ++ viewOf a :: l2 ∧
      flatten (update_at t segs (fun x => x.withLoc p)) =
        l1 ++ withLocView (viewOf a) p :: l2 := by
  match segs with
  | [] =>
    rw [find_assembly_guard t (Or.inl rfl)] at h
    cases h
    rw [update_at_guard t _ (Or.inl rfl)]
    exact ⟨[], flatten_children t.children, flatten_eq t, flatten_withLoc t p⟩
  | s :: rest =>
    by_cases hg : s = "" ∧ rest = []
    · obtain ⟨rfl, rfl⟩ := hg
      rw [find_assembly_guard t (Or.inr rfl)] at h
      cases h
      rw [update_at_guard t _ (Or.inr rfl)]
      exact ⟨[], flatten_children t.children, flatten_eq t, flatten_withLoc t p⟩
    · rw [find_assembly_cons t hg] at h
      rw [update_at_cons t _ hg]
      by_cases ht : t.name = s
      · rw [List.find?_cons_of_pos _ (by simpa using ht)] at h
        rw [if_pos ht]
        exact update_loc_split p rest t a h
      · rw [List.find?_cons_of_neg _ (by simpa using ht)] at h
        rw [if_neg ht]
        cases hfind : t.children.find? (fun x => x.name = s) with
        | none => rw [hfind] at h; simp at h
        | some b =>
          rw [hfind] at h
          obtain ⟨l1, l2, h1, h2⟩ :=
            update_loc_split_children p s rest t.children b a hfind h
          refine ⟨viewOf t :: l1, l2, ?_, ?_⟩
          · rw [flatten_eq t, h1]; rfl
          · rw [flatten_withChildren, h2]; rfl
  termination_by (segs.length, 1, 0)

theorem update_loc_split_children (p : P) (s : String) (rest : List String)
    (cs : List (MAssembly P S)) (b a : MAssembly P S)
    (hfind : cs.find? (fun x => x.name = s) = some b)
    (h : find_assembly b rest = some a) :
    ∃ l1 l2, flatten_children cs = l1 ++ viewOf a :: l2 ∧
      flatten_children
          (update_first cs s (fun c => update_at c rest (fun x => x.withLoc p))) =
        l1 ++ withLocView (viewOf a) p :: l2 := by
  match cs with
  | [] => simp at hfind
  | c :: cs' =>
    by_cases hc : c.name = s
    · rw [List.find?_cons_of_pos _ (by simpa using hc)] at hfind
      obtain rfl : c = b := by injection hfind
      obtain ⟨l1, l2, h1, h2⟩ := update_loc_split p rest c a h
      refine ⟨l1, l2 ++ flatten_children cs', ?_, ?_⟩
      · rw [flatten_children_cons, h1]; simp
      · simp only [update_first]
        rw [if_pos hc, flatten_children_cons, h2]; simp
    · rw [List.find?_cons_of_neg _ (by simpa using hc)] at hfind
      obtain ⟨l1, l2, h1, h2⟩ :=
        update_loc_split_children p s rest cs' b a hfind h
      refine ⟨flatten c ++ l1, l2, ?_, ?_⟩
      · rw [flatten_children_cons, h1]; simp
      · simp only [update_first]
        rw [if_neg hc, flatten_children_cons, h2]; simp
  termination_by (rest.length + 1, 0, cs.length)
end

/-! ### What `set_origin` does to the whole tree -/

mutual
theorem set_origin_flatten [PoseOps P] [ShapeMove S P]
    (t t' : MAssembly P S) (h : set_origin t = some t') :
    List.Forall₂ (fun v v' => origin_view v = some v') (flatten t) (flatten t') := by
  match t with
  | .mk n ob l og ml ms r cs =>
    match og with
    | some m =>
      match ob with
      | none => simp [set_origin] at h
      | some sh =>
        simp only [set_origin] at h
        cases hcs : set_origin_children cs with
        | none => rw [hcs] at h; cases h
        | some cs2 =>
          rw [hcs] at h
          cases h
          exact List.Forall₂.cons (by simp [origin_view])
            (set_origin_children_flatten cs cs2 hcs)
    | none =>
      simp only [set_origin] at h
      cases hcs : set_origin_children cs with
      | none => rw [hcs] at h; cases h
      | some cs2 =>
        rw [hcs] at h
        cases h
        exact List.Forall₂.cons (by simp [origin_view])
          (set_origin_children_flatten cs cs2 hcs)

theorem set_origin_children_flatten [PoseOps P] [ShapeMove S P]
    (cs cs' : List (MAssembly P S)) (h : set_origin_children cs = some cs') :
    List.Forall₂ (fun v v' => origin_view v = some v')
      (flatten_children cs) (flatten_children cs') := by
  match cs with
  | [] =>
    simp only [set_origin_children] at h
    cases h
    exact List.Forall₂.nil
  | c :: cs0 =>
    simp only [set_origin_children] at h
    cases hc : set_origin c with
    | none => rw [hc] at h; cases h
    | some c2 =>
      cases hcs : set_origin_children cs0 with
      | none => rw [hc, hcs] at h; cases h
      | some cs2 =>
        rw [hc, hcs] at h
        cases h
        exact List.rel_append (set_origin_flatten c c2 hc)
          (set_origin_children_flatten cs0 cs2 hcs)
end

theorem origin_view_same (v v' : NodeView P S) [PoseOps P] [ShapeMove S P]
    (h : origin_view v = some v') :
    v'.name = v.name ∧ v'.origin = v.origin ∧ v'.matelist = v.matelist ∧
      v'.mates = v.mates ∧ v'.relocated = v.relocated := by
  unfold origin_view at h
  cases hog : v.origin with
  | some m =>
    rw [hog] at h
    cases hob : v.obj with
    | none => rw [hob] at h; cases h
    | some sh => rw [hob] at h; cases h; simp [hog]
  | none => rw [hog] at h; cases h; simp [hog]

/-- The pass `set_origin` never touches a node's registry, `relocated` flag, name,
`matelist` or origin; in particular the root keeps its registry. -/
theorem set_origin_root_same [PoseOps P] [ShapeMove S P]
    {t t' : MAssembly P S} (h : set_origin t = some t') :
    t'.name = t.name ∧ t'.origin = t.origin ∧ t'.matelist = t.matelist ∧
      t'.mates = t.mates ∧ t'.relocated = t.relocated := by
  have hF := set_origin_flatten t t' h
  rw [flatten_eq t, flatten_eq t'] at hF
  cases hF with
  | cons hhead _ => exact origin_view_same _ _ hhead

theorem flatten_withMates_withRelocated (t : MAssembly P S) (ms) (r) :
    flatten ((t.withMates ms).withRelocated r) =
      ⟨t.name, t.obj, t.loc, t.origin, t.matelist, ms, r⟩ ::
        flatten_children t.children := by
  cases t; rfl

theorem origin_view_rel [PoseOps P] [ShapeMove S P] {v v' : NodeView P S}
    (h : origin_view v = some v') :
    (∀ m, v.origin = some m → v'.loc = PoseOps.ident ∧
      v'.obj = v.obj.map (fun sh => ShapeMove.moved sh (PoseOps.inv m.loc))) ∧
    (v.origin = none → v'.loc = v.loc ∧ v'.obj = v.obj) := by
  unfold origin_view at h
  cases hog : v.origin with
  | some m0 =>
    rw [hog] at h
    cases hob : v.obj with
    | none => rw [hob] at h; cases h
    | some sh =>
      rw [hob] at h
      cases h
      constructor
      · intro m hm
        injection hm with hm
        subst hm
        exact ⟨rfl, rfl⟩
      · intro hn; cases hn
  | none =>
    rw [hog] at h
    cases h
    constructor
    · intro m hm; cases hm
    · intro _; exact ⟨rfl, rfl⟩

theorem relocate_entry_none [PoseOps P] (t1 : MAssembly P S)
    (e : String × MateEntry P)
    (hfind : find_assembly t1 (split_sel e.2.assembly) = none) :
    relocate_entry t1 e = none := by
  obtain ⟨k, v⟩ := e
  simp only [relocate_entry, hfind]

theorem relocate_entry_some_origin [PoseOps P] (t1 : MAssembly P S)
    (e : String × MateEntry P) (assy : MAssembly P S) (o : Mate P)
    (hfind : find_assembly t1 (split_sel e.2.assembly) = some assy)
    (hog : assy.origin = some o) :
    relocate_entry t1 e =
      some (e.1, ⟨e.2.mate.moved (PoseOps.inv o.loc), e.2.assembly⟩) := by
  obtain ⟨k, v⟩ := e
  simp only [relocate_entry, hfind, hog]

theorem relocate_entry_some_noorigin [PoseOps P] (t1 : MAssembly P S)
    (e : String × MateEntry P) (assy : MAssembly P S)
    (hfind : find_assembly t1 (split_sel e.2.assembly) = some assy)
    (hog : assy.origin = none) :
    relocate_entry t1 e = some (e.1, e.2) := by
  obtain ⟨k, v⟩ := e
  simp only [relocate_entry, hfind, hog]

theorem relocate_entries_forall₂ [PoseOps P] (t1 : MAssembly P S) :
    ∀ (es es' : List (String × MateEntry P)),
      relocate_entries t1 es = some es' →
      List.Forall₂ (fun e e' => relocate_entry t1 e = some e') es es' := by
  intro es
  induction es with
  | nil =>
    intro es' h
    simp only [relocate_entries] at h
    cases h
    exact List.Forall₂.nil
  | cons e es0 ih =>
    intro es' h
    simp only [relocate_entries] at h
    cases he : relocate_entry t1 e with
    | none => rw [he] at h; cases h
    | some e2 =>
      cases hes : relocate_entries t1 es0 with
      | none => rw [he, hes] at h; cases h
      | some es2 =>
        rw [he, hes] at h
        cases h
        exact List.Forall₂.cons he (ih es2 hes)

/-! ### `set_origin` on a grouping node that has an origin but no geometry -/

mutual
theorem set_origin_none_of_bad [PoseOps P] [ShapeMove S P]
    (t : MAssembly P S) (v : NodeView P S) (hv : v ∈ flatten t)
    (hbad : v.origin.isSome ∧ v.obj = none) : set_origin t = none := by
  match t with
  | .mk n ob l og ml ms r cs =>
    rw [flatten_eq] at hv
    cases hv with
    | head =>
      obtain ⟨h1, h2⟩ := hbad
      simp only [viewOf] at h1 h2
      simp only [obj_mk] at h2
      subst h2
      simp only [origin_mk] at h1
      match og, h1 with
      | some m, _ => simp [set_origin]
    | tail _ hv =>
      have hcs := set_origin_children_none_of_bad cs v hv hbad
      match og with
      | some m =>
        match ob with
        | none => simp [set_origin]
        | some sh => simp [set_origin, hcs]
      | none => simp [set_origin, hcs]

theorem set_origin_children_none_of_bad [PoseOps P] [ShapeMove S P]
    (cs : List (MAssembly P S)) (v : NodeView P S) (hv : v ∈ flatten_children cs)
    (hbad : v.origin.isSome ∧ v.obj = none) : set_origin_children cs = none := by
  match cs with
  | [] => simp at hv
  | c :: cs0 =>
    rw [flatten_children_cons, List.mem_append] at hv
    cases hv with
    | inl hv =>
      have hc := set_origin_none_of_bad c v hv hbad
      simp [set_origin_children, hc]
    | inr hv =>
      have hcs := set_origin_children_none_of_bad cs0 v hv hbad
      simp only [set_origin_children, hcs]
      cases set_origin c <;> rfl
end

/-! ### Inverting a successful `relocate` -/

theorem relocate_success [PoseOps P] [ShapeMove S P] {t t' : MAssembly P S}
    {msgs : List String} (hflag : t.relocated = false)
    (hrel : relocate t = (some t', msgs)) :
    ∃ t1 ms2, set_origin t = some t1 ∧ relocate_entries t1 t1.mates = some ms2 ∧
      t' = (t1.withMates ms2).withRelocated true ∧ msgs = [] := by
  unfold relocate at hrel
  simp only [hflag, Bool.false_eq_true, if_false] at hrel
  split at hrel
  next hso => exact absurd (congrArg Prod.fst hrel) (by simp)
  next t1 hso =>
    split at hrel
    next hme => exact absurd (congrArg Prod.fst hrel) (by simp)
    next ms2 hme =>
      have h1 := congrArg Prod.fst hrel
      have h2 := congrArg Prod.snd hrel
      simp only at h1 h2
      injection h1 with h1
      exact ⟨t1, ms2, hso, hme, h1.symm, h2.symm⟩

/-! ## The claims -/

/-- Claim C1: for every assembly tree and registered mates `mateA` (owned by
`X`) and `mateB`, when `X` resolves, `assemble mateA mateB` succeeds without
diagnostics and sets `X`'s local pose to exactly
`poseOf(mateB) * invert(poseOf(mateA))` — algebraic equality of the assigned
pose, for an arbitrary pose algebra. -/
theorem c1_assemble_placement {P S : Type} [PoseOps P]
    (t X : MAssembly P S) (mateA mateB : String) (eA eB : MateEntry P)
    (hA : dict_find t.mates mateA = some eA)
    (hB : dict_find t.mates mateB = some eB)
    (hX : find_assembly t (split_sel eA.assembly) = some X) :
    ∃ t', assemble t mateA mateB = some (t', []) ∧
      find_assembly t' (split_sel eA.assembly) =
        some (X.withLoc (PoseOps.comp eB.mate.loc (PoseOps.inv eA.mate.loc))) := by
  refine ⟨update_at t (split_sel eA.assembly)
    (fun a => a.withLoc (PoseOps.comp eB.mate.loc (PoseOps.inv eA.mate.loc))),
    ?_, ?_⟩
  · simp only [assemble, hA, hX, hB]
  · exact find_update_at
      (fun a => a.withLoc (PoseOps.comp eB.mate.loc (PoseOps.inv eA.mate.loc)))
      (fun x => rfl) _ t X hX

/-- Claim C2: after the first (successful) call to `relocate()`, node for node
in pre-order: a node that had an origin mate has its local pose reset to the
identity and its geometry replaced by the original geometry moved by the
inverse of the origin pose, and a node without an origin keeps its geometry
and pose unchanged by the `set_origin` pass. -/
theorem c2_origin_centering {P S : Type} [PoseOps P] [ShapeMove S P]
    (t t' : MAssembly P S) (msgs : List String)
    (hflag : t.relocated = false) (hrel : relocate t = (some t', msgs)) :
    List.Forall₂ (fun v v' =>
        (∀ m, v.origin = some m → v'.loc = PoseOps.ident ∧
          v'.obj = v.obj.map (fun sh => ShapeMove.moved sh (PoseOps.inv m.loc))) ∧
        (v.origin = none → v'.loc = v.loc ∧ v'.obj = v.obj))
      (flatten t) (flatten t') := by
  obtain ⟨t1, ms2, hso, hme, ht', hmsgs⟩ := relocate_success hflag hrel
  subst ht'
  have F := (set_origin_flatten t t1 hso).imp
    (fun v v' h => origin_view_rel h)
  rw [flatten_eq t, flatten_eq t1] at F
  cases F with
  | cons hhead htail =>
    rw [flatten_eq t, flatten_withMates_withRelocated]
    exact List.Forall₂.cons hhead htail

/-- Claim C3: during the first (successful) `relocate()`, entry for entry of the
registry: an entry whose owning node has an origin has its stored mate pose
replaced by the original stored pose moved by the inverse of the owner's
origin pose (the selector is kept); an entry whose owner has no origin is kept
unchanged. -/
theorem c3_mate_reexpression {P S : Type} [PoseOps P] [ShapeMove S P]
    (t t1 t' : MAssembly P S) (msgs : List String)
    (hflag : t.relocated = false) (hso : set_origin t = some t1)
    (hrel : relocate t = (some t', msgs)) :
    List.Forall₂ (fun e e' => e'.1 = e.1 ∧
        ∀ assy, find_assembly t1 (split_sel e.2.assembly) = some assy →
          ((∀ o, assy.origin = some o →
              e'.2.mate = e.2.mate.moved (PoseOps.inv o.loc) ∧
              e'.2.assembly = e.2.assembly) ∧
           (assy.origin = none → e'.2 = e.2)))
      t.mates t'.mates := by
  obtain ⟨t1', ms2, hso', hme, ht', hmsgs⟩ := relocate_success hflag hrel
  rw [hso] at hso'
  injection hso' with hso'
  subst hso'
  subst ht'
  have hmates : t1.mates = t.mates := (set_origin_root_same hso).2.2.2.1
  rw [hmates] at hme
  have F := relocate_entries_forall₂ t1 t.mates ms2 hme
  simp only [withRelocated_mates, withMates_mates]
  refine F.imp ?_
  intro e e' he
  cases hfind : find_assembly t1 (split_sel e.2.assembly) with
  | none =>
    rw [relocate_entry_none t1 e hfind] at he
    cases he
  | some assy0 =>
    cases hog : assy0.origin with
    | some o =>
      rw [relocate_entry_some_origin t1 e assy0 o hfind hog] at he
      injection he with he
      subst he
      refine ⟨rfl, ?_⟩
      intro assy hassy
      injection hassy with hassy
      subst hassy
      constructor
      · intro o' ho'
        rw [hog] at ho'
        injection ho' with ho'
        subst ho'
        exact ⟨rfl, rfl⟩
      · intro hn; rw [hog] at hn; cases hn
    | none =>
      rw [relocate_entry_some_noorigin t1 e assy0 hfind hog] at he
      injection he with he
      subst he
      refine ⟨rfl, ?_⟩
      intro assy hassy
      injection hassy with hassy
      subst hassy
      constructor
      · intro o' ho'; rw [hog] at ho'; cases ho'
      · intro _; rfl

/-- Claim C4: a successful first `relocate()` sets the `relocated` flag, and a
second call is a pure no-op that returns the tree unchanged and reports
`"already relocated"` as a diagnostic instead of raising. -/
theorem c4_relocate_noop {P S : Type} [PoseOps P] [ShapeMove S P]
    (t0 t : MAssembly P S) (msgs : List String)
    (hflag : t0.relocated = false) (hrel : relocate t0 = (some t, msgs)) :
    t.relocated = true ∧ relocate t = (some t, ["already relocated"]) := by
  obtain ⟨t1, ms2, hso, hme, ht, hmsgs⟩ := relocate_success hflag hrel
  subst ht
  refine ⟨rfl, ?_⟩
  unfold relocate
  rw [withRelocated_relocated]
  simp

/-- Claim C5: `find_assembly("")` returns the receiver itself, and every node
reachable by a name-path whose segments match exactly one candidate at every
step is returned by `find_assembly` on the `>`-joined selector for that
path. -/
theorem c5_path_resolution {P S : Type} (t : MAssembly P S) :
    find_assembly_str t "" = some t ∧
    ∀ (sel : String) (path : List String) (target : MAssembly P S),
      split_sel sel = path → Resolves t path target →
      find_assembly_str t sel = some target := by
  constructor
  · exact find_assembly_guard t (Or.inr rfl)
  · intro sel path target hsplit hres
    unfold find_assembly_str
    rw [hsplit]
    exact resolves_find hres

/-- Claim C6: with two or more identically named siblings, `find_assembly` on
that name deterministically returns the first-added matching child (no error
is reported: the result is a plain `some`). -/
theorem c6_duplicate_siblings {P S : Type} (t cfirst : MAssembly P S)
    (s : String) (pre post : List (MAssembly P S))
    (hs : s ≠ "") (hsplit : split_sel s = [s]) (hroot : t.name ≠ s)
    (hch : t.children = pre ++ cfirst :: post)
    (hpre : ∀ x ∈ pre, x.name ≠ s) (hcf : cfirst.name = s)
    (_hdup : ∃ cdup ∈ post, cdup.name = s) :
    find_assembly_str t s = some cfirst := by
  unfold find_assembly_str
  rw [hsplit]
  rw [find_assembly_cons t (fun hc => hs hc.1)]
  rw [List.find?_cons_of_neg _ (by simpa using hroot)]
  rw [hch, List.find?_append]
  rw [List.find?_eq_none.mpr (by intro x hx; simpa using hpre x hx)]
  rw [Option.none_or]
  rw [List.find?_cons_of_pos _ (by simpa using hcf)]
  exact find_assembly_guard cfirst (Or.inl rfl)

/-- Claim C7, counterexample to the claim as stated: `mate` with a selector
that does not resolve leaves everything unchanged and returns `self`, but —
contrary to the claim — emits *no* diagnostic: the list of printed lines is
empty (the `mate` method body has no `print` at all). -/
theorem c7_counterexample :
    find_assembly_str Wbase "ghost" = none ∧
      mate Wbase "m" "ghost" ⟨(1 : Int)⟩ false = (Wbase, []) :=
  ⟨rfl, rfl⟩

/-- Claim C7 (amended): for every `mate` call whose selector does not resolve,
the whole tree — registry, every `matelist`, every `origin` — is left exactly
unchanged, no exception is raised (the operation is total), and `self` is
returned for chaining; the failure is fully silent: no diagnostic is
emitted. -/
theorem c7_mate_unresolved_silent {P S : Type} (t : MAssembly P S)
    (nm selector : String) (m : Mate P) (is_origin : Bool)
    (h : find_assembly t (split_sel selector) = none) :
    mate t nm selector m is_origin = (t, []) := by
  simp only [mate, h]

/-- Claim C8: an `assemble` call with both mate names registered either (a)
fails to resolve the owner and then changes nothing at all (diagnostic only),
or (b) resolves the owner and rewrites exactly that node's pose: the pre-order
node listing of the result is the original listing with only the owner's
entry changed, and only in its pose field (name, geometry, origin, matelist,
registry and flag of every node, and every other node whole, are unchanged). -/
theorem c8_assemble_frame {P S : Type} [PoseOps P]
    (t : MAssembly P S) (mateA mateB : String) (eA eB : MateEntry P)
    (hA : dict_find t.mates mateA = some eA)
    (hB : dict_find t.mates mateB = some eB) :
    (find_assembly t (split_sel eA.assembly) = none →
      assemble t mateA mateB = some (t, ["No assembly for '" ++ mateA ++ "'"])) ∧
    (∀ X, find_assembly t (split_sel eA.assembly) = some X →
      ∃ t' l1 l2, assemble t mateA mateB = some (t', []) ∧
        flatten t = l1 ++ viewOf X :: l2 ∧
        flatten t' = l1 ++ withLocView (viewOf X)
          (PoseOps.comp eB.mate.loc (PoseOps.inv eA.mate.loc)) :: l2) := by
  constructor
  · intro hnone
    simp only [assemble, hA, hnone]
  · intro X hX
    obtain ⟨l1, l2, h1, h2⟩ := update_loc_split
      (PoseOps.comp eB.mate.loc (PoseOps.inv eA.mate.loc))
      (split_sel eA.assembly) t X hX
    refine ⟨update_at t (split_sel eA.assembly)
      (fun x => x.withLoc (PoseOps.comp eB.mate.loc (PoseOps.inv eA.mate.loc))),
      l1, l2, ?_, h1, h2⟩
    simp only [assemble, hA, hX, hB]

/-- Claim C9, counterexample to the claim as stated: with the second mate name
absent from the registry but the first mate's owner selector unresolvable,
`assemble` does *not* fail with a lookup error: it prints the
`No assembly for ...` diagnostic and returns `self` normally (the second
lookup is never reached). -/
theorem c9_counterexample :
    dict_find Wghost.mates "unknown" = none ∧
      assemble Wghost "g" "unknown" =
        some (Wghost, ["No assembly for 'g'"]) :=
  ⟨rfl, rfl⟩

/-- Claim C9 (amended): an unknown *first* mate name always surfaces as the
mapping's key-not-found failure, with no state produced; an unknown *second*
mate name does so only when the first mate's owner resolves (when the owner
does not resolve, the call returns normally with a diagnostic instead).  In
the failing cases no updated tree is produced at all. -/
theorem c9_assemble_keyerror {P S : Type} [PoseOps P]
    (t : MAssembly P S) (mateA mateB : String) :
    (dict_find t.mates mateA = none → assemble t mateA mateB = none) ∧
    (∀ eA X, dict_find t.mates mateA = some eA →
      find_assembly t (split_sel eA.assembly) = some X →
      dict_find t.mates mateB = none → assemble t mateA mateB = none) := by
  constructor
  · intro h
    simp only [assemble, h]
  · intro eA X hA hX hB
    simp only [assemble, hA, hX, hB]

/-- Claim C10: `set_origin` (and hence the first `relocate`) is only total when
every node with an origin also owns geometry: a tree containing a node whose
origin is set but whose `obj` is absent makes `set_origin` dereference the
missing shape, so the whole operation raises (`none`) instead of skipping the
node. -/
theorem c10_origin_without_shape {P S : Type} [PoseOps P] [ShapeMove S P]
    (t : MAssembly P S) (v : NodeView P S) (hv : v ∈ flatten t)
    (ho : v.origin.isSome) (hob : v.obj = none) :
    set_origin t = none ∧
      (t.relocated = false → relocate t = (none, [])) := by
  have hs := set_origin_none_of_bad t v hv ⟨ho, hob⟩
  refine ⟨hs, fun hflag => ?_⟩
  unfold relocate
  simp only [hflag, Bool.false_eq_true, if_false, hs]

/-! ## Witnesses: the theorems applied to the concrete assemblies -/

theorem c1_witness :
    ∃ t', assemble Wreg "wristL" "wristR" = some (t', []) ∧
      find_assembly t' (split_sel "armL") =
        some (WarmL.withLoc (PoseOps.comp (10 : Int) (PoseOps.inv (3 : Int)))) :=
  c1_assemble_placement Wreg WarmL "wristL" "wristR" ⟨⟨3⟩, "armL"⟩ ⟨⟨10⟩, "armR"⟩
    rfl rfl rfl

theorem c2_witness :
    List.Forall₂ (fun v v' =>
        (∀ m, v.origin = some m → v'.loc = PoseOps.ident ∧
          v'.obj = v.obj.map (fun sh => ShapeMove.moved sh (PoseOps.inv m.loc))) ∧
        (v.origin = none → v'.loc = v.loc ∧ v'.obj = v.obj))
      (flatten Wrel) (flatten Wrel') :=
  c2_origin_centering Wrel Wrel' [] rfl rfl

theorem c3_witness :
    List.Forall₂ (fun e e' => e'.1 = e.1 ∧
        ∀ assy, find_assembly Wt1 (split_sel e.2.assembly) = some assy →
          ((∀ o, assy.origin = some o →
              e'.2.mate = e.2.mate.moved (PoseOps.inv o.loc) ∧
              e'.2.assembly = e.2.assembly) ∧
           (assy.origin = none → e'.2 = e.2)))
      Wrel.mates Wrel'.mates :=
  c3_mate_reexpression Wrel Wt1 Wrel' [] rfl rfl rfl

theorem c4_witness :
    Wrel'.relocated = true ∧
      relocate Wrel' = (some Wrel', ["already relocated"]) :=
  c4_relocate_noop Wrel Wrel' [] rfl rfl

theorem c5_witness :
    find_assembly_str Wbase "" = some Wbase ∧
      find_assembly_str Wbase "armL" = some WarmL :=
  ⟨(c5_path_resolution Wbase).1,
    (c5_path_resolution Wbase).2 "armL" ["armL"] WarmL rfl
      (Resolves.step (by decide) rfl (Resolves.here WarmL))⟩

theorem c6_witness : find_assembly_str Wtable "leg" = some Wleg1 :=
  c6_duplicate_siblings Wtable Wleg1 "leg" [] [Wleg2] (by decide) rfl
    (by decide) rfl (by simp) rfl ⟨Wleg2, by simp, rfl⟩

theorem c7_witness :
    mate Wbase "m" "ghost" ⟨(1 : Int)⟩ false = (Wbase, []) :=
  c7_mate_unresolved_silent Wbase "m" "ghost" ⟨1⟩ false rfl

theorem c8_witness :
    ∃ t' l1 l2, assemble Wreg "wristL" "wristR" = some (t', []) ∧
      flatten Wreg = l1 ++ viewOf WarmL :: l2 ∧
      flatten t' = l1 ++ withLocView (viewOf WarmL)
        (PoseOps.comp (10 : Int) (PoseOps.inv (3 : Int))) :: l2 :=
  (c8_assemble_frame Wreg "wristL" "wristR" ⟨⟨3⟩, "armL"⟩ ⟨⟨10⟩, "armR"⟩
    rfl rfl).2 WarmL rfl

theorem c9_witness :
    assemble Wghost "nope" "g" = none ∧
      assemble Wreg "wristL" "unknown" = none :=
  ⟨(c9_assemble_keyerror Wghost "nope" "g").1 rfl,
    (c9_assemble_keyerror Wreg "wristL" "unknown").2 ⟨⟨3⟩, "armL"⟩ WarmL
      rfl rfl rfl⟩

theorem c10_witness :
    set_origin Wbad = none ∧ relocate Wbad = (none, []) :=
  ⟨(c10_origin_without_shape Wbad (viewOf Wgrp) (by decide) (by decide) rfl).1,
    (c10_origin_without_shape Wbad (viewOf Wgrp) (by decide) (by decide) rfl).2 rfl⟩

end MAssembly
